import Mathlib

/-!
# SHACAL2-CBC password-based file encryptor

A shallow embedding of `src/cipher/shacal2_cbc.cpp`: the file header, key
derivation, `EncryptFile`, `DecryptFile`, the interactive menu and the batch
command line, as pure functions over an explicit `World` (file system, entropy,
standard input, and a trace of the effects performed).

The program links against a cryptographic library whose code is not part of the
repository.  The block permutation, its inverse and the password-based key
derivation function are taken as parameters (`CryptoLib`); the chaining mode and
the block padding filter are modelled from the specification (section 4.2).
-/

namespace Shacal2Cbc

set_option autoImplicit false

/-! ## Constants and data model -/

/-- One octet (the C++ type `byte`). -/
abbrev Byte := Fin 256

/-- Block size of the cipher in bytes (256 bits). -/
abbrev BLOCK_SIZE : Nat := 32
/-- Key size of the cipher in bytes (256 bits). -/
abbrev KEY_SIZE : Nat := 32
/-- The initialization vector has the size of one block. -/
abbrev IV_SIZE : Nat := BLOCK_SIZE
/-- Size of the salt fed to the key derivation function. -/
abbrev SALT_SIZE : Nat := 16
/-- Iteration count of PBKDF2. -/
abbrev ITERATIONS : Nat := 10000

/-- The header of an encrypted file: `byte salt[SALT_SIZE]; byte iv[IV_SIZE];`. -/
structure FileHeader where
  salt : List Byte
  iv : List Byte
  deriving DecidableEq, Repr

/-- The object representation of a header, as written by
`outFile.write(reinterpret_cast<const char*>(&header), sizeof(FileHeader))`:
both members are arrays of `byte` (alignment 1), so the two arrays are adjacent. -/
def FileHeader.bytes (h : FileHeader) : List Byte := h.salt ++ h.iv

/-- The value of `sizeof(FileHeader)`. -/
abbrev sizeofFileHeader : Nat := SALT_SIZE + IV_SIZE

/-- The header filled by `inFile.read(reinterpret_cast<char*>(&header), sizeof(FileHeader))`
from the first bytes of a file. -/
def FileHeader.read (contents : List Byte) : FileHeader :=
  { salt := contents.take SALT_SIZE
    iv := (contents.drop SALT_SIZE).take IV_SIZE }

/-- The primitives of the cryptographic library the program is linked with, taken as
parameters: the forward permutation of the block cipher on one block under a key,
its inverse, and PBKDF2-HMAC-SHA256 (password, salt, iterations, requested length).
The primitives work on fixed-size buffers, which the length fields record. -/
structure CryptoLib where
  permute : List Byte → List Byte → List Byte
  inverse : List Byte → List Byte → List Byte
  pbkdf2 : String → List Byte → Nat → Nat → List Byte
  permute_length : ∀ k b, b.length = BLOCK_SIZE → (permute k b).length = BLOCK_SIZE
  inverse_length : ∀ k b, b.length = BLOCK_SIZE → (inverse k b).length = BLOCK_SIZE
  pbkdf2_length : ∀ p s i n, (pbkdf2 p s i n).length = n

/-- The kinds of failure.  The program reports a failure by printing a diagnostic and
returning `false`; each kind stands for one diagnostic:
* `IoError`: "не удалось открыть входной файл" / "не удалось создать выходной файл";
* `EmptyInputError`: "входной файл пуст";
* `TruncatedFileError`: "файл слишком мал для дешифрования";
* `EmptyCiphertextError`: "файл не содержит данных для дешифрования";
* `PaddingError`, `InputLengthError`: "Ошибка дешифрования: " followed by the text of
  the exception thrown by the decryption filter. -/
inductive CoreError
  | IoError
  | EmptyInputError
  | TruncatedFileError
  | EmptyCiphertextError
  | PaddingError
  | InputLengthError
  deriving DecidableEq, Repr

deriving instance DecidableEq for Except

/-- The effects a run performs, in the order of the trace. -/
inductive Event
  /-- A call of `rng.GenerateBlock(_, size)`. -/
  | generateBlock (size : Nat)
  /-- A call of `pbkdf.DeriveKey(...)` on a password. -/
  | deriveKey (password : String)
  /-- The encryption pipeline ran. -/
  | encrypt
  /-- The decryption pipeline ran. -/
  | decrypt
  /-- The header of the named input file was read. -/
  | readHeader (path : String)
  /-- The named output file was created and written. -/
  | write (path : String)
  deriving DecidableEq, Repr

/-- The environment of a run. `files p = none` means that `p` cannot be opened for
reading; `creatable p` tells whether `p` can be opened for writing; `entropy` is the
byte stream the random pool draws from; `stdin` holds the pending input lines. -/
structure World where
  files : String → Option (List Byte)
  creatable : String → Bool
  entropy : Nat → Byte
  stdin : List String
  trace : List Event

/-- Append an event to the trace. -/
def World.log (w : World) (e : Event) : World :=
  { w with trace := w.trace ++ [e] }

/-- Draw `size` bytes from the random pool: `rng.GenerateBlock(buf, size)`. -/
def World.GenerateBlock (w : World) (size : Nat) : List Byte × World :=
  ((List.range size).map w.entropy,
   { w with entropy := fun i => w.entropy (size + i),
            trace := w.trace ++ [Event.generateBlock size] })

/-- Create (or truncate) the file `path` and write `data` to it. -/
def World.write (w : World) (path : String) (data : List Byte) : World :=
  { w with files := fun p => if p = path then some data else w.files p,
           trace := w.trace ++ [Event.write path] }

/-- Read one line of standard input (`getline(cin, s)`); at end of input the string
stays empty. -/
def World.getline (w : World) : String × World :=
  match w.stdin with
  | [] => ("", w)
  | l :: rest => (l, { w with stdin := rest })

/-! ## The block cipher engine (library code, modelled) -/

/-- Bytewise exclusive or of two buffers. -/
def xorbuf (a b : List Byte) : List Byte := List.zipWith (· ^^^ ·) a b

/-- Modelled from the spec: cipher-block-chaining encryption of `n` whole blocks of
`data` (the library's `CBC_Mode<SHACAL2>::Encryption`, absent from the repository).
Each plaintext block is exclusive-ORed with the previous ciphertext block (`reg`,
seeded with the IV) before the forward permutation is applied; the ciphertext block
is chained forward. -/
def cbcEncrypt (lib : CryptoLib) (key : List Byte) : Nat → List Byte → List Byte → List Byte
  | 0, _, _ => []
  | n + 1, reg, data =>
    let c := lib.permute key (xorbuf (data.take BLOCK_SIZE) reg)
    c ++ cbcEncrypt lib key n c (data.drop BLOCK_SIZE)

/-- Modelled from the spec: cipher-block-chaining decryption of `n` whole blocks of
`data` (the library's `CBC_Mode<SHACAL2>::Decryption`, absent from the repository):
apply the inverse permutation, then exclusive-OR with the previous ciphertext block
(or the IV for the first block). -/
def cbcDecrypt (lib : CryptoLib) (key : List Byte) : Nat → List Byte → List Byte → List Byte
  | 0, _, _ => []
  | n + 1, reg, data =>
    let c := data.take BLOCK_SIZE
    xorbuf (lib.inverse key c) reg ++ cbcDecrypt lib key n c (data.drop BLOCK_SIZE)

/-- Modelled from the spec: the standard block padding applied by the library's
`StreamTransformationFilter` (absent from the repository): pad with bytes indicating
the pad length, always adding at least one pad byte even if the input is
block-aligned. -/
def pkcsPad (data : List Byte) : List Byte :=
  let pad := BLOCK_SIZE - data.length % BLOCK_SIZE
  data ++ List.replicate pad (Fin.ofNat pad)

/-- Modelled from the spec: the encryption pipeline
`StringSource(plaintext, true, new StreamTransformationFilter(encryptor, new VectorSink(ciphertext)))`
of the library (absent from the repository): pad, then encrypt in chained-block mode
under `key` and `iv`. -/
def Encrypt (lib : CryptoLib) (key iv plaintext : List Byte) : List Byte :=
  let padded := pkcsPad plaintext
  cbcEncrypt lib key (padded.length / BLOCK_SIZE) iv padded

/-- Modelled from the spec: the decryption pipeline
`StringSource(ciphertext, true, new StreamTransformationFilter(decryptor, new VectorSink(plaintext)))`
of the library (absent from the repository).  It fails with `InputLengthError` if the
length of the ciphertext is not a positive multiple of the block size; otherwise the
blocks are decrypted in chained-block mode, and it fails with `PaddingError` if the
padding bytes of the final block `space` are not a valid padding pattern; otherwise
the padding is removed. -/
def Decrypt (lib : CryptoLib) (key iv ciphertext : List Byte) : Except CoreError (List Byte) :=
  if ciphertext.length = 0 ∨ ciphertext.length % BLOCK_SIZE ≠ 0 then
    .error .InputLengthError
  else
    let plain := cbcDecrypt lib key (ciphertext.length / BLOCK_SIZE) iv ciphertext
    let space := plain.drop (plain.length - BLOCK_SIZE)
    let pad := space.getD (BLOCK_SIZE - 1) 0
    if pad.val < 1 ∨ pad.val > BLOCK_SIZE ∨
        (space.drop (BLOCK_SIZE - pad.val)).any (· != pad) then
      .error .PaddingError
    else
      .ok (plain.take (plain.length - pad.val))

/-! ## The program -/

/-- Key generation from a password: `DeriveKey(password, salt, salt_len, key, key_len)`
calls PBKDF2-HMAC-SHA256 with `ITERATIONS` iterations. -/
def DeriveKey (lib : CryptoLib) (password : String) (salt : List Byte) (salt_len key_len : Nat)
    (w : World) : List Byte × World :=
  (lib.pbkdf2 password (salt.take salt_len) ITERATIONS key_len, w.log (.deriveKey password))

/-- File encryption: `bool EncryptFile(inputFile, outputFile, password)`.  The result
is `.ok ()` where the source returns `true`, and the kind of the diagnostic where it
returns `false`. -/
def EncryptFile (lib : CryptoLib) (inputFile outputFile password : String) (w : World) :
    Except CoreError Unit × World :=
  match w.files inputFile with
  | none => (.error .IoError, w)
  | some plaintext =>
    let fileSize := plaintext.length
    if fileSize = 0 then
      (.error .EmptyInputError, w)
    else
      let (salt, w) := w.GenerateBlock SALT_SIZE
      let (iv, w) := w.GenerateBlock IV_SIZE
      let header : FileHeader := { salt := salt, iv := iv }
      let (key, w) := DeriveKey lib password header.salt SALT_SIZE KEY_SIZE w
      let ciphertext := Encrypt lib key header.iv plaintext
      let w := w.log .encrypt
      if w.creatable outputFile then
        (.ok (), w.write outputFile (header.bytes ++ ciphertext))
      else
        (.error .IoError, w)

/-- File decryption: `bool DecryptFile(inputFile, outputFile, password)`.  An exception
of the decryption pipeline is caught and reported as a failure. -/
def DecryptFile (lib : CryptoLib) (inputFile outputFile password : String) (w : World) :
    Except CoreError Unit × World :=
  match w.files inputFile with
  | none => (.error .IoError, w)
  | some contents =>
    let totalSize := contents.length
    if totalSize < sizeofFileHeader then
      (.error .TruncatedFileError, w)
    else
      let header := FileHeader.read contents
      let w := w.log (.readHeader inputFile)
      let ciphertextSize := totalSize - sizeofFileHeader
      let ciphertext := (contents.drop sizeofFileHeader).take ciphertextSize
      if ciphertextSize = 0 then
        (.error .EmptyCiphertextError, w)
      else
        let (key, w) := DeriveKey lib password header.salt SALT_SIZE KEY_SIZE w
        let w := w.log .decrypt
        match Decrypt lib key header.iv ciphertext with
        | .error e => (.error e, w)
        | .ok plaintext =>
          if w.creatable outputFile then
            (.ok (), w.write outputFile plaintext)
          else
            (.error .IoError, w)

/-- The value of a run of decimal digits, most significant first. -/
def digitsValue (ds : List Char) : Nat :=
  ds.foldl (fun n c => 10 * n + (c.toNat - 48)) 0

/-- The extraction `cin >> choice` followed by `cin.ignore()`, on an input line that
holds the menu choice alone: an optional sign and decimal digits give the number,
anything else is a failed extraction. -/
def parseChoice (line : String) : Option Int :=
  let digits (ds : List Char) : Option Nat :=
    if ds ≠ [] ∧ ds.all Char.isDigit then some (digitsValue ds) else none
  match line.toList with
  | '-' :: ds => (digits ds).map (fun n => - (n : Int))
  | '+' :: ds => (digits ds).map (fun n => (n : Int))
  | ds => (digits ds).map (fun n => (n : Int))

/-- The interactive menu, `void InteractiveMode()`, run for at most `fuel` turns of its
loop.  Standard input is read line by line: the menu choice is expected on a line of
its own (a line that is not a number is the failed `cin >> choice`). -/
def InteractiveMode (lib : CryptoLib) : Nat → World → World
  | 0, w => w
  | fuel + 1, w =>
    let (line, w) := w.getline
    match parseChoice line with
    | none => InteractiveMode lib fuel w
    | some choice =>
      if choice = 0 then w
      else if choice = 3 then InteractiveMode lib fuel w
      else
        let (inputFile, w) := w.getline
        if inputFile.isEmpty then InteractiveMode lib fuel w
        else
          let (outputFile, w) := w.getline
          if outputFile.isEmpty then InteractiveMode lib fuel w
          else
            let (password, w) := w.getline
            if password.isEmpty then InteractiveMode lib fuel w
            else if choice = 1 then
              InteractiveMode lib fuel (EncryptFile lib inputFile outputFile password w).2
            else if choice = 2 then
              InteractiveMode lib fuel (DecryptFile lib inputFile outputFile password w).2
            else InteractiveMode lib fuel w

/-- The entry point, `int main(int argc, char* argv[])`: the exit status and the final
world.  `argv` holds the program name followed by the arguments; `fuel` bounds the
turns of the interactive menu. -/
def main (lib : CryptoLib) (fuel : Nat) (argv : List String) (w : World) : Int × World :=
  if argv.length = 1 then
    (0, InteractiveMode lib fuel w)
  else if argv.length = 5 then
    let mode := argv.getD 1 ""
    let inputFile := argv.getD 2 ""
    let outputFile := argv.getD 3 ""
    let password := argv.getD 4 ""
    if mode = "encrypt" then
      match EncryptFile lib inputFile outputFile password w with
      | (.ok _, w) => (0, w)
      | (.error _, w) => (1, w)
    else if mode = "decrypt" then
      match DecryptFile lib inputFile outputFile password w with
      | (.ok _, w) => (0, w)
      | (.error _, w) => (1, w)
    else
      (1, w)
  else if argv.length > 1 ∧ argv.getD 1 "" = "--help" then
    (0, w)
  else
    (1, w)

/-! ## A concrete instance for evaluation -/

/-- A toy library: the permutation adds the key bytewise (a missing key byte counts
as 1), the inverse subtracts it, and the derived key repeats byte 1 for the length of
the password, then the salt, then filler. -/
def toyLib : CryptoLib where
  permute k b := List.zipWith (· + ·) b (k ++ List.replicate (b.length - k.length) 1)
  inverse k b := List.zipWith (· - ·) b (k ++ List.replicate (b.length - k.length) 1)
  pbkdf2 p s _ n := (List.replicate p.length 1 ++ s ++ List.replicate n 7).take n
  permute_length := by intro k b h; simp [List.length_zipWith]; omega
  inverse_length := by intro k b h; simp [List.length_zipWith]; omega
  pbkdf2_length := by intro p s i n; simp; omega

/-- A world with one file `in.txt` holding `contents`, every path creatable, the
entropy stream `i ↦ i mod 256`, the pending input lines `stdin` and an empty trace. -/
def toyWorld (contents : List Byte) (stdin : List String) : World where
  files p := if p = "in.txt" then some contents else none
  creatable _ := true
  entropy i := Fin.ofNat i
  stdin := stdin
  trace := []

/-! ## Auxiliary facts -/

theorem byte_xor_cancel (a b : Byte) : (a ^^^ b) ^^^ b = a := by
  apply Fin.ext
  have h1 : a.val ^^^ b.val < 256 := Nat.xor_lt_two_pow (n := 8) a.isLt b.isLt
  show ((a.val ^^^ b.val) % 256 ^^^ b.val) % 256 = a.val
  rw [Nat.mod_eq_of_lt h1, Nat.xor_assoc, Nat.xor_self, Nat.xor_zero]
  exact Nat.mod_eq_of_lt a.isLt

theorem xorbuf_length (a b : List Byte) : (xorbuf a b).length = min a.length b.length := by
  simp [xorbuf]

theorem xorbuf_cancel : ∀ (a b : List Byte), a.length ≤ b.length → xorbuf (xorbuf a b) b = a
  | [], _, _ => by simp [xorbuf]
  | _ :: _, [], h => by simp at h
  | x :: a, y :: b, h => by
    have ih := xorbuf_cancel a b (by simpa using h)
    simp only [xorbuf, List.zipWith_cons_cons] at ih ⊢
    rw [ih, byte_xor_cancel]

theorem cbcEncrypt_length (lib : CryptoLib) (key : List Byte) :
    ∀ (n : Nat) (reg data : List Byte), reg.length = 32 → n * 32 ≤ data.length →
      (cbcEncrypt lib key n reg data).length = n * 32
  | 0, _, _, _, _ => by simp [cbcEncrypt]
  | n + 1, reg, data, hreg, hdata => by
    have hx : (xorbuf (data.take 32) reg).length = 32 := by
      rw [xorbuf_length, List.length_take]; omega
    have hc : (lib.permute key (xorbuf (data.take 32) reg)).length = 32 :=
      lib.permute_length key _ hx
    have ih := cbcEncrypt_length lib key n _ (data.drop 32) hc
      (by rw [List.length_drop]; omega)
    simp only [cbcEncrypt, List.length_append, hc, ih]
    omega

theorem cbcDecrypt_length (lib : CryptoLib) (key : List Byte) :
    ∀ (n : Nat) (reg data : List Byte), reg.length = 32 → n * 32 ≤ data.length →
      (cbcDecrypt lib key n reg data).length = n * 32
  | 0, _, _, _, _ => by simp [cbcDecrypt]
  | n + 1, reg, data, hreg, hdata => by
    have ht : (data.take 32).length = 32 := by
      rw [List.length_take]; omega
    have hc : (lib.inverse key (data.take 32)).length = 32 := lib.inverse_length key _ ht
    have hx : (xorbuf (lib.inverse key (data.take 32)) reg).length = 32 := by
      rw [xorbuf_length]; omega
    have ih := cbcDecrypt_length lib key n (data.take 32) (data.drop 32) ht
      (by rw [List.length_drop]; omega)
    simp only [cbcDecrypt, List.length_append, hx, ih]
    omega

theorem cbc_roundtrip (lib : CryptoLib) (key : List Byte)
    (hinv : ∀ b, b.length = BLOCK_SIZE → lib.inverse key (lib.permute key b) = b) :
    ∀ (n : Nat) (reg data : List Byte), reg.length = 32 → n * 32 ≤ data.length →
      cbcDecrypt lib key n reg (cbcEncrypt lib key n reg data) = data.take (n * 32)
  | 0, _, _, _, _ => by simp [cbcDecrypt]
  | n + 1, reg, data, hreg, hdata => by
    have ht : (data.take 32).length = 32 := by
      rw [List.length_take]; omega
    have hx : (xorbuf (data.take 32) reg).length = 32 := by
      rw [xorbuf_length]; omega
    have hc : (lib.permute key (xorbuf (data.take 32) reg)).length = 32 :=
      lib.permute_length key _ hx
    have ih := cbc_roundtrip lib key hinv n _ (data.drop 32) hc
      (by rw [List.length_drop]; omega)
    simp only [cbcEncrypt, cbcDecrypt]
    rw [List.take_left' hc, List.drop_left' hc, hinv _ hx, xorbuf_cancel _ _ (by omega), ih]
    conv_rhs => rw [← List.take_append_drop 32 (data.take ((n + 1) * 32))]
    rw [List.take_take, List.drop_take]
    congr 2 <;> omega


theorem pkcsPad_length (data : List Byte) :
    (pkcsPad data).length = (data.length / 32 + 1) * 32 := by
  simp only [pkcsPad, BLOCK_SIZE, List.length_append, List.length_replicate]
  omega

theorem Encrypt_length (lib : CryptoLib) (key iv plaintext : List Byte) (hiv : iv.length = 32) :
    (Encrypt lib key iv plaintext).length = (plaintext.length / 32 + 1) * 32 := by
  have hp := pkcsPad_length plaintext
  simp only [Encrypt, BLOCK_SIZE]
  rw [cbcEncrypt_length lib key _ iv _ hiv (by omega), hp]
  omega

theorem getLast_of_length_32 (l : List Byte) (h : l.length = 32) :
    l.getLast? = some (l.getD 31 0) := by
  rw [List.getLast?_eq_getElem?, h, List.getD_eq_getElem?_getD]
  have : 31 < l.length := by omega
  simp [List.getElem?_eq_getElem this]

/-- The final block and the bytes before it of a non-empty run of whole blocks. -/
theorem split_final_block (m : List Byte) (n : Nat) (hn : 0 < n) (hm : m.length = n * 32) :
    m = m.take (m.length - 32) ++ m.drop (m.length - 32) ∧ (m.drop (m.length - 32)).length = 32 := by
  refine ⟨(List.take_append_drop _ _).symm, ?_⟩
  rw [List.length_drop]; omega

theorem Decrypt_eq_of_aligned (lib : CryptoLib) (key iv ct : List Byte)
    (hpos : 0 < ct.length) (hmul : ct.length % 32 = 0) :
    Decrypt lib key iv ct =
      (let plain := cbcDecrypt lib key (ct.length / 32) iv ct
       let space := plain.drop (plain.length - 32)
       let pad := space.getD 31 0
       if pad.val < 1 ∨ pad.val > 32 ∨ (space.drop (32 - pad.val)).any (· != pad) then
         .error .PaddingError
       else .ok (plain.take (plain.length - pad.val))) := by
  unfold Decrypt
  rw [if_neg (by simp only [BLOCK_SIZE]; omega)]
  rfl

theorem Decrypt_Encrypt (lib : CryptoLib) (key iv plaintext : List Byte) (hiv : iv.length = 32)
    (hinv : ∀ b, b.length = BLOCK_SIZE → lib.inverse key (lib.permute key b) = b) :
    Decrypt lib key iv (Encrypt lib key iv plaintext) = .ok plaintext := by
  have hlen := Encrypt_length lib key iv plaintext hiv
  have hp := pkcsPad_length plaintext
  rw [Decrypt_eq_of_aligned lib key iv _ (by omega) (by omega)]
  have hplain : cbcDecrypt lib key ((Encrypt lib key iv plaintext).length / 32) iv
      (Encrypt lib key iv plaintext) = pkcsPad plaintext := by
    have hn : (Encrypt lib key iv plaintext).length / 32 = (pkcsPad plaintext).length / 32 := by
      omega
    rw [hn]
    simp only [Encrypt]
    rw [cbc_roundtrip lib key hinv _ iv _ hiv (by omega)]
    exact List.take_of_length_le (by omega)
  simp only [hplain]
  -- the final block of the padded plaintext
  set k := 32 - plaintext.length % 32 with hk
  have hk1 : 1 ≤ k := by omega
  have hk2 : k ≤ 32 := by omega
  have hpad : pkcsPad plaintext = plaintext ++ List.replicate k (Fin.ofNat k : Byte) := rfl
  have hval : (Fin.ofNat k : Byte).val = k := by
    show k % 256 = k
    exact Nat.mod_eq_of_lt (by omega)
  have hspace : (pkcsPad plaintext).drop ((pkcsPad plaintext).length - 32) =
      plaintext.drop (plaintext.length / 32 * 32) ++ List.replicate k (Fin.ofNat k : Byte) := by
    rw [hp, hpad, List.drop_append_of_le_length (by omega)]
    congr 2
    omega
  have hsl : (plaintext.drop (plaintext.length / 32 * 32)).length = 32 - k := by
    rw [List.length_drop]; omega
  have hget : ((pkcsPad plaintext).drop ((pkcsPad plaintext).length - 32)).getD 31 0
      = (Fin.ofNat k : Byte) := by
    rw [hspace, List.getD_eq_getElem?_getD, List.getElem?_append_right (by omega)]
    rw [List.getElem?_replicate, if_pos (by omega)]
    rfl
  rw [hget, hval, hspace]
  have hdrop : (plaintext.drop (plaintext.length / 32 * 32) ++
      List.replicate k (Fin.ofNat k : Byte)).drop (32 - k) = List.replicate k (Fin.ofNat k : Byte) := by
    rw [← hsl]; exact List.drop_left _ _
  rw [hdrop, if_neg]
  · congr 1
    rw [hp, hpad]
    have : (plaintext.length / 32 + 1) * 32 - k = plaintext.length := by omega
    rw [this]
    exact List.take_left _ _
  · intro h
    rcases h with h | h | h
    · omega
    · omega
    · rw [List.any_eq_true] at h
      obtain ⟨x, hx, hne⟩ := h
      rw [List.eq_of_mem_replicate hx] at hne
      simp at hne

theorem take_split_final (m : List Byte) (k : Nat) (hk : k ≤ 32) (hm : 32 ≤ m.length) :
    m.take (m.length - k) =
      m.take (m.length - 32) ++ (m.drop (m.length - 32)).take (32 - k) := by
  have h1 : m.take (m.length - 32) = (m.take (m.length - k)).take (m.length - 32) := by
    rw [List.take_take]; congr 1; omega
  have h2 : (m.drop (m.length - 32)).take (32 - k) =
      (m.take (m.length - k)).drop (m.length - 32) := by
    rw [List.drop_take]; congr 1; omega
  rw [h1, h2, List.take_append_drop]


/-- The result of `EncryptFile` on a readable, non-empty input with a creatable output. -/
theorem EncryptFile_eq (lib : CryptoLib) (inputFile outputFile password : String) (w : World)
    (plaintext : List Byte) (hin : w.files inputFile = some plaintext) (hne : plaintext ≠ [])
    (hout : w.creatable outputFile = true) :
    EncryptFile lib inputFile outputFile password w =
      (.ok (),
        { files := fun p => if p = outputFile then
            some ((List.range SALT_SIZE).map w.entropy
              ++ (List.range IV_SIZE).map (fun i => w.entropy (SALT_SIZE + i))
              ++ Encrypt lib (lib.pbkdf2 password ((List.range SALT_SIZE).map w.entropy)
                    ITERATIONS KEY_SIZE)
                  ((List.range IV_SIZE).map (fun i => w.entropy (SALT_SIZE + i))) plaintext)
            else w.files p
          creatable := w.creatable
          entropy := fun i => w.entropy (SALT_SIZE + (IV_SIZE + i))
          stdin := w.stdin
          trace := w.trace ++ [.generateBlock SALT_SIZE, .generateBlock IV_SIZE,
            .deriveKey password, .encrypt, .write outputFile] }) := by
  have hlen : plaintext.length ≠ 0 := by
    intro h; exact hne (List.length_eq_zero.mp h)
  have htake : ((List.range SALT_SIZE).map w.entropy).take SALT_SIZE
      = (List.range SALT_SIZE).map w.entropy := List.take_of_length_le (by simp)
  simp only [EncryptFile, hin, hlen, if_false, World.GenerateBlock, DeriveKey, World.log,
    World.write, hout, if_true, FileHeader.bytes, htake, List.append_assoc, List.cons_append,
    List.nil_append]

theorem DecryptFile_eq (lib : CryptoLib) (inputFile outputFile password : String) (w : World)
    (salt iv ciphertext : List Byte) (hin : w.files inputFile = some (salt ++ iv ++ ciphertext))
    (hsalt : salt.length = SALT_SIZE) (hiv : iv.length = IV_SIZE) (hne : ciphertext ≠ []) :
    DecryptFile lib inputFile outputFile password w =
      match Decrypt lib (lib.pbkdf2 password salt ITERATIONS KEY_SIZE) iv ciphertext with
      | .error e =>
        (.error e, { w with trace := w.trace ++ [.readHeader inputFile, .deriveKey password,
            .decrypt] })
      | .ok plaintext =>
        if w.creatable outputFile then
          (.ok (), { w with
            files := fun p => if p = outputFile then some plaintext else w.files p
            trace := w.trace ++ [.readHeader inputFile, .deriveKey password, .decrypt,
              .write outputFile] })
        else
          (.error .IoError, { w with trace := w.trace ++ [.readHeader inputFile,
            .deriveKey password, .decrypt] }) := by
  have hclen : ciphertext.length ≠ 0 := by
    intro h; exact hne (List.length_eq_zero.mp h)
  simp only [SALT_SIZE, IV_SIZE, BLOCK_SIZE] at hsalt hiv
  have h1 : ¬ (salt ++ iv ++ ciphertext).length < sizeofFileHeader := by
    simp only [List.length_append, sizeofFileHeader, SALT_SIZE, IV_SIZE, BLOCK_SIZE]; omega
  have h2 : ¬ (salt ++ iv ++ ciphertext).length - sizeofFileHeader = 0 := by
    simp only [List.length_append, sizeofFileHeader, SALT_SIZE, IV_SIZE, BLOCK_SIZE]; omega
  have hs : (FileHeader.read (salt ++ iv ++ ciphertext)).salt = salt := by
    simp only [FileHeader.read, SALT_SIZE, List.append_assoc]
    rw [← hsalt]; exact List.take_left _ _
  have hi : (FileHeader.read (salt ++ iv ++ ciphertext)).iv = iv := by
    simp only [FileHeader.read, SALT_SIZE, IV_SIZE, BLOCK_SIZE, List.append_assoc]
    rw [← hsalt, List.drop_left, ← hiv]; exact List.take_left _ _
  have hc : ((salt ++ iv ++ ciphertext).drop sizeofFileHeader).take
      ((salt ++ iv ++ ciphertext).length - sizeofFileHeader) = ciphertext := by
    have : sizeofFileHeader = (salt ++ iv).length := by
      simp only [List.length_append, sizeofFileHeader, SALT_SIZE, IV_SIZE, BLOCK_SIZE]; omega
    rw [this, List.drop_left]
    exact List.take_of_length_le (by simp only [List.length_append]; omega)
  have hst : salt.take SALT_SIZE = salt := List.take_of_length_le (by simp [hsalt])
  generalize salt ++ iv ++ ciphertext = contents at hin h1 h2 hs hi hc
  simp only [DecryptFile, hin, h1, h2, if_false, hs, hi, hc, DeriveKey, World.log, hst,
    World.write, List.append_assoc, List.cons_append, List.nil_append]

theorem toy_zip_cancel : ∀ (b k : List Byte), b.length ≤ k.length →
    List.zipWith (· - ·) (List.zipWith (· + ·) b k) k = b
  | [], _, _ => by simp
  | _ :: _, [], h => by simp at h
  | x :: b, y :: k, h => by
    have ih := toy_zip_cancel b k (by simpa using h)
    simp only [List.zipWith_cons_cons, ih, add_sub_cancel_right]

theorem toy_inverse (k b : List Byte) : toyLib.inverse k (toyLib.permute k b) = b := by
  have hk : b.length ≤ (k ++ List.replicate (b.length - k.length) (1 : Byte)).length := by
    simp only [List.length_append, List.length_replicate]; omega
  have hl : (List.zipWith (· + ·) b (k ++ List.replicate (b.length - k.length) (1 : Byte))).length
      = b.length := by
    rw [List.length_zipWith]; omega
  show List.zipWith (· - ·) (List.zipWith (· + ·) b (k ++ List.replicate (b.length - k.length) 1))
      (k ++ List.replicate ((List.zipWith (· + ·) b
        (k ++ List.replicate (b.length - k.length) 1)).length - k.length) 1) = b
  rw [hl]
  exact toy_zip_cancel b _ hk

theorem ceil_blocks (n : Nat) : ⌈((n : ℚ) + 1) / 32⌉₊ = n / 32 + 1 := by
  rw [Nat.ceil_eq_iff (by omega)]
  have h1 : 32 * (n / 32) ≤ n := Nat.mul_div_le n 32
  have h2 : n + 1 ≤ 32 * (n / 32) + 32 := by omega
  have h1q : (32 : ℚ) * ((n / 32 : ℕ) : ℚ) ≤ (n : ℚ) := by exact_mod_cast h1
  have h2q : (n : ℚ) + 1 ≤ 32 * ((n / 32 : ℕ) : ℚ) + 32 := by exact_mod_cast h2
  constructor
  · rw [lt_div_iff₀ (by norm_num)]
    simp only [Nat.add_sub_cancel]
    linarith
  · rw [div_le_iff₀ (by norm_num)]
    push_cast
    linarith

/-- The events that `EncryptFile` adds to the trace derive a key from its password only. -/
theorem EncryptFile_deriveKey (lib : CryptoLib) (inputFile outputFile password : String)
    (w : World) (q : String)
    (h : Event.deriveKey q ∈ (EncryptFile lib inputFile outputFile password w).2.trace) :
    Event.deriveKey q ∈ w.trace ∨ q = password := by
  cases hin : w.files inputFile with
  | none =>
    simp only [EncryptFile, hin] at h
    exact Or.inl h
  | some plaintext =>
    by_cases hP : plaintext.length = 0
    · simp only [EncryptFile, hin, hP, if_true] at h
      exact Or.inl h
    · by_cases hc : w.creatable outputFile = true
      · simp only [EncryptFile, hin, hP, if_false, World.GenerateBlock, DeriveKey, World.log,
          World.write, hc, if_true, List.mem_append, List.mem_singleton, Event.deriveKey.injEq,
          reduceCtorEq, or_false] at h
        tauto
      · simp only [EncryptFile, hin, hP, if_false, World.GenerateBlock, DeriveKey, World.log,
          World.write, hc, List.mem_append, List.mem_singleton, Event.deriveKey.injEq,
          reduceCtorEq, or_false] at h
        tauto

/-- The events that `DecryptFile` adds to the trace derive a key from its password only. -/
theorem DecryptFile_deriveKey (lib : CryptoLib) (inputFile outputFile password : String)
    (w : World) (q : String)
    (h : Event.deriveKey q ∈ (DecryptFile lib inputFile outputFile password w).2.trace) :
    Event.deriveKey q ∈ w.trace ∨ q = password := by
  cases hin : w.files inputFile with
  | none =>
    simp only [DecryptFile, hin] at h
    exact Or.inl h
  | some contents =>
    by_cases h1 : contents.length < sizeofFileHeader
    · simp only [DecryptFile, hin, h1, if_true] at h
      exact Or.inl h
    · by_cases h2 : contents.length - sizeofFileHeader = 0
      · simp only [DecryptFile, hin, h1, h2, if_false, if_true, World.log, List.mem_append,
          List.mem_singleton, reduceCtorEq, or_false] at h
        exact Or.inl h
      · simp only [DecryptFile, hin, h1, h2, if_false, DeriveKey, World.log, World.write] at h
        split at h
        · simp only [List.mem_append, List.mem_singleton, Event.deriveKey.injEq, reduceCtorEq,
            or_false] at h
          tauto
        · by_cases hc : w.creatable outputFile = true
          · simp only [hc, if_true, List.mem_append, List.mem_singleton, Event.deriveKey.injEq,
              reduceCtorEq, or_false] at h
            tauto
          · simp only [hc, if_false, List.mem_append, List.mem_singleton, Event.deriveKey.injEq,
              reduceCtorEq, or_false] at h
            tauto

theorem getline_trace (w : World) : w.getline.2.trace = w.trace := by
  unfold World.getline
  split <;> rfl

/-- The interactive menu never derives a key from an empty password: every key
derivation it adds to the trace is on a non-empty password. -/
theorem InteractiveMode_password_nonempty (lib : CryptoLib) :
    ∀ (fuel : Nat) (w : World) (q : String),
      Event.deriveKey q ∈ (InteractiveMode lib fuel w).trace →
        Event.deriveKey q ∈ w.trace ∨ q ≠ ""
  | 0, w, q, h => Or.inl h
  | fuel + 1, w, q, h => by
    have ih := InteractiveMode_password_nonempty lib fuel
    have g := getline_trace
    unfold InteractiveMode at h
    simp only [] at h
    split at h
    · have := ih _ _ h; rw [g] at this; exact this
    · split at h
      · rw [g] at h; exact Or.inl h
      · split at h
        · have := ih _ _ h; rw [g] at this; exact this
        · split at h
          · have := ih _ _ h; rw [g, g] at this; exact this
          · split at h
            · have := ih _ _ h; rw [g, g, g] at this; exact this
            · split at h
              · have := ih _ _ h; rw [g, g, g, g] at this; exact this
              · rename_i hpw
                have hq : ∀ q, q = (w.getline.2.getline.2.getline.2.getline).1 → q ≠ "" := by
                  intro q hq hc
                  rw [hc] at hq
                  rw [← hq] at hpw
                  exact hpw (by decide)
                split at h
                · rcases ih _ _ h with h1 | h1
                  · rcases EncryptFile_deriveKey _ _ _ _ _ _ h1 with h2 | h2
                    · rw [g, g, g, g] at h2; exact Or.inl h2
                    · exact Or.inr (hq _ h2)
                  · exact Or.inr h1
                · split at h
                  · rcases ih _ _ h with h1 | h1
                    · rcases DecryptFile_deriveKey _ _ _ _ _ _ h1 with h2 | h2
                      · rw [g, g, g, g] at h2; exact Or.inl h2
                      · exact Or.inr (hq _ h2)
                    · exact Or.inr h1
                  · have := ih _ _ h; rw [g, g, g, g] at this; exact this


/-! ## The claims -/

/-- C1 (as stated, refuted): a plaintext of length 0 is a counterexample to the file-level
round trip.  With a block primitive whose inverse undoes its permutation, a readable
input file and a creatable output file, `EncryptFile` on the empty plaintext does not
succeed: it fails with `EmptyInputError` and writes no artifact. -/
theorem EncryptFile_empty_plaintext_counterexample :
    (∀ k b, toyLib.inverse k (toyLib.permute k b) = b) ∧
    (toyWorld [] []).files "in.txt" = some [] ∧
    (toyWorld [] []).creatable "out.bin" = true ∧
    (EncryptFile toyLib "in.txt" "out.bin" "pw123" (toyWorld [] [])).1 ≠ .ok () ∧
    (EncryptFile toyLib "in.txt" "out.bin" "pw123" (toyWorld [] [])).1
      = .error .EmptyInputError ∧
    (EncryptFile toyLib "in.txt" "out.bin" "pw123" (toyWorld [] [])).2.files "out.bin" = none :=
  ⟨toy_inverse, by decide, by decide, by decide, by decide, by decide⟩

/-- C1 (amended): round trip at file level for non-empty plaintexts.  For every non-empty
plaintext `P`, every password and every entropy stream of the random source, if the
input file holds `P`, the artifact and the output file can be created, and the inverse
of the block primitive undoes its forward permutation, then `EncryptFile` succeeds and
`DecryptFile` on the resulting artifact with the same password succeeds and writes
exactly `P`. -/
theorem file_roundtrip_nonempty (lib : CryptoLib)
    (hinv : ∀ k b, b.length = BLOCK_SIZE → lib.inverse k (lib.permute k b) = b)
    (w : World) (inputFile artifact outputFile password : String) (P : List Byte)
    (hin : w.files inputFile = some P) (hne : P ≠ [])
    (hart : w.creatable artifact = true) (hout : w.creatable outputFile = true) :
    (EncryptFile lib inputFile artifact password w).1 = .ok () ∧
    (DecryptFile lib artifact outputFile password
      (EncryptFile lib inputFile artifact password w).2).1 = .ok () ∧
    (DecryptFile lib artifact outputFile password
      (EncryptFile lib inputFile artifact password w).2).2.files outputFile = some P := by
  rw [EncryptFile_eq lib inputFile artifact password w P hin hne hart]
  refine ⟨rfl, ?_⟩
  have hiv : ((List.range IV_SIZE).map (fun i => w.entropy (SALT_SIZE + i))).length = 32 := by
    simp
  have hct : Encrypt lib (lib.pbkdf2 password ((List.range SALT_SIZE).map w.entropy)
      ITERATIONS KEY_SIZE) ((List.range IV_SIZE).map (fun i => w.entropy (SALT_SIZE + i))) P
      ≠ [] := by
    intro h
    have := Encrypt_length lib (lib.pbkdf2 password ((List.range SALT_SIZE).map w.entropy)
      ITERATIONS KEY_SIZE) _ P hiv
    rw [h] at this
    simp at this
  rw [DecryptFile_eq lib artifact outputFile password _ ((List.range SALT_SIZE).map w.entropy)
    ((List.range IV_SIZE).map (fun i => w.entropy (SALT_SIZE + i)))
    (Encrypt lib (lib.pbkdf2 password ((List.range SALT_SIZE).map w.entropy)
      ITERATIONS KEY_SIZE) ((List.range IV_SIZE).map (fun i => w.entropy (SALT_SIZE + i))) P)
    (by simp) (by simp) hiv hct]
  rw [Decrypt_Encrypt lib _ _ P hiv (hinv _)]
  simp [hout]

/-- Witness for C1 (amended): the plaintext "hello" under the password "pw123". -/
theorem file_roundtrip_nonempty_witness :
    (∀ k b, b.length = BLOCK_SIZE → toyLib.inverse k (toyLib.permute k b) = b) ∧
    (toyWorld [104, 101, 108, 108, 111] []).files "in.txt" = some [104, 101, 108, 108, 111] ∧
    (EncryptFile toyLib "in.txt" "out.bin" "pw123" (toyWorld [104, 101, 108, 108, 111] [])).1
      = .ok () ∧
    (DecryptFile toyLib "out.bin" "dec.txt" "pw123"
      (EncryptFile toyLib "in.txt" "out.bin" "pw123"
        (toyWorld [104, 101, 108, 108, 111] [])).2).1 = .ok () ∧
    (DecryptFile toyLib "out.bin" "dec.txt" "pw123"
      (EncryptFile toyLib "in.txt" "out.bin" "pw123"
        (toyWorld [104, 101, 108, 108, 111] [])).2).2.files "dec.txt"
      = some [104, 101, 108, 108, 111] :=
  ⟨fun k b _ => toy_inverse k b, by decide,
    file_roundtrip_nonempty toyLib (fun k b _ => toy_inverse k b)
      (toyWorld [104, 101, 108, 108, 111] []) "in.txt" "out.bin" "dec.txt" "pw123"
      [104, 101, 108, 108, 111] (by decide) (by decide) (by decide) (by decide)⟩

/-- C2: artifact layout.  For every non-empty plaintext `P` and password `W`, with the
salt `S` (16 bytes) and the IV `V` (32 bytes) drawn from the random source, the file
written by `EncryptFile` is exactly `S ++ V ++ C`, where `C` is the padded CBC
encryption of `P` under the key PBKDF2(`W`, `S`, 10000 iterations, 32 bytes) and the
IV `V`: bytes [0,16) are the salt, [16,48) the IV and [48,end) the ciphertext. -/
theorem EncryptFile_artifact_layout (lib : CryptoLib) (w : World)
    (inputFile outputFile W : String) (P : List Byte)
    (hin : w.files inputFile = some P) (hne : P ≠ []) (hout : w.creatable outputFile = true) :
    ∃ S V C out : List Byte,
      S = (List.range 16).map w.entropy ∧
      V = (List.range 32).map (fun i => w.entropy (16 + i)) ∧
      C = Encrypt lib (lib.pbkdf2 W S 10000 32) V P ∧
      (EncryptFile lib inputFile outputFile W w).1 = .ok () ∧
      (EncryptFile lib inputFile outputFile W w).2.files outputFile = some out ∧
      out = S ++ V ++ C ∧ S.length = 16 ∧ V.length = 32 ∧
      out.take 16 = S ∧ (out.drop 16).take 32 = V ∧ out.drop 48 = C := by
  refine ⟨_, _, _, _, rfl, rfl, rfl, ?_, ?_, rfl, by simp, by simp, ?_, ?_, ?_⟩
  · rw [EncryptFile_eq lib inputFile outputFile W w P hin hne hout]
  · rw [EncryptFile_eq lib inputFile outputFile W w P hin hne hout]
    simp
  · rw [List.append_assoc]
    exact List.take_left' (by simp)
  · rw [List.append_assoc, List.drop_left' (by simp)]
    exact List.take_left' (by simp)
  · exact List.drop_left' (by simp)

/-- Witness for C2: the plaintext "hello" under the password "pw123". -/
theorem EncryptFile_artifact_layout_witness :
    (toyWorld [104, 101, 108, 108, 111] []).files "in.txt" = some [104, 101, 108, 108, 111] ∧
    ([104, 101, 108, 108, 111] : List Byte) ≠ [] ∧
    (toyWorld [104, 101, 108, 108, 111] []).creatable "out.bin" = true ∧
    ∃ S V C out : List Byte,
      S = (List.range 16).map (toyWorld [104, 101, 108, 108, 111] []).entropy ∧
      V = (List.range 32).map (fun i => (toyWorld [104, 101, 108, 108, 111] []).entropy (16 + i)) ∧
      C = Encrypt toyLib (toyLib.pbkdf2 "pw123" S 10000 32) V [104, 101, 108, 108, 111] ∧
      (EncryptFile toyLib "in.txt" "out.bin" "pw123"
        (toyWorld [104, 101, 108, 108, 111] [])).1 = .ok () ∧
      (EncryptFile toyLib "in.txt" "out.bin" "pw123"
        (toyWorld [104, 101, 108, 108, 111] [])).2.files "out.bin" = some out ∧
      out = S ++ V ++ C ∧ S.length = 16 ∧ V.length = 32 ∧
      out.take 16 = S ∧ (out.drop 16).take 32 = V ∧ out.drop 48 = C :=
  ⟨by decide, by decide, by decide,
    EncryptFile_artifact_layout toyLib (toyWorld [104, 101, 108, 108, 111] [])
      "in.txt" "out.bin" "pw123" [104, 101, 108, 108, 111] (by decide) (by decide) (by decide)⟩

/-- C3: always-pad length law.  For every plaintext of `n` bytes (and a 32-byte IV), the
ciphertext produced by the encryption step has length `ceil((n+1)/32)*32`: it is a
positive multiple of 32 and strictly greater than `n`, a block-aligned plaintext gains
one full extra block, and the artifact (header followed by ciphertext) is 48 bytes
longer; so `n = 32` gives 64 ciphertext bytes, and `n = 5` gives 32 ciphertext bytes
and an 80-byte artifact. -/
theorem Encrypt_length_law (lib : CryptoLib) (key iv salt P : List Byte)
    (hiv : iv.length = IV_SIZE) (hsalt : salt.length = SALT_SIZE) :
    (Encrypt lib key iv P).length = ⌈((P.length : ℚ) + 1) / 32⌉₊ * 32 ∧
    (Encrypt lib key iv P).length = (P.length + 1 + 31) / 32 * 32 ∧
    0 < (Encrypt lib key iv P).length ∧
    (Encrypt lib key iv P).length % BLOCK_SIZE = 0 ∧
    P.length < (Encrypt lib key iv P).length ∧
    (P.length % BLOCK_SIZE = 0 → (Encrypt lib key iv P).length = P.length + BLOCK_SIZE) ∧
    (P.length = 32 → (Encrypt lib key iv P).length = 64) ∧
    (P.length = 5 → (Encrypt lib key iv P).length = 32 ∧
      (FileHeader.bytes { salt := salt, iv := iv } ++ Encrypt lib key iv P).length = 80) := by
  have h := Encrypt_length lib key iv P hiv
  simp only [BLOCK_SIZE, IV_SIZE, SALT_SIZE] at hiv hsalt ⊢
  refine ⟨?_, ?_, ?_, ?_, ?_, ?_, ?_, ?_⟩
  · rw [ceil_blocks, h]
  · omega
  · omega
  · omega
  · omega
  · intro hP; omega
  · intro hP; omega
  · intro hP
    refine ⟨by omega, ?_⟩
    simp only [FileHeader.bytes, List.length_append]
    omega

/-- Witness for C3: a 5-byte plaintext under the toy library. -/
theorem Encrypt_length_law_witness :
    (List.replicate 32 (9 : Byte)).length = IV_SIZE ∧
    (List.replicate 16 (4 : Byte)).length = SALT_SIZE ∧
    (Encrypt toyLib (List.replicate 32 3) (List.replicate 32 9)
      [104, 101, 108, 108, 111]).length = 32 :=
  ⟨by decide, by decide,
    ((Encrypt_length_law toyLib (List.replicate 32 3) (List.replicate 32 9)
      (List.replicate 16 4) [104, 101, 108, 108, 111] (by decide) (by decide)).2.2.2.2.2.2.2
        (by decide)).1⟩

/-- C4: truncated artifact.  For every input file shorter than 48 bytes and every
password, `DecryptFile` fails with `TruncatedFileError` and leaves the world as it
was: no header is read, no key is derived, nothing is written. -/
theorem DecryptFile_truncated (lib : CryptoLib) (w : World)
    (inputFile outputFile password : String) (contents : List Byte)
    (hin : w.files inputFile = some contents) (hlen : contents.length < 48) :
    DecryptFile lib inputFile outputFile password w = (.error .TruncatedFileError, w) := by
  have h : contents.length < sizeofFileHeader := hlen
  simp only [DecryptFile, hin, h, if_true]

/-- Witness for C4: a 5-byte file. -/
theorem DecryptFile_truncated_witness :
    (toyWorld [1, 2, 3, 4, 5] []).files "in.txt" = some [1, 2, 3, 4, 5] ∧
    ([1, 2, 3, 4, 5] : List Byte).length < 48 ∧
    DecryptFile toyLib "in.txt" "out.bin" "pw123" (toyWorld [1, 2, 3, 4, 5] [])
      = (.error .TruncatedFileError, toyWorld [1, 2, 3, 4, 5] []) :=
  ⟨by decide, by decide,
    DecryptFile_truncated toyLib (toyWorld [1, 2, 3, 4, 5] []) "in.txt" "out.bin" "pw123"
      [1, 2, 3, 4, 5] (by decide) (by decide)⟩

/-- C5: header-only artifact.  For every input file of exactly 48 bytes and every
password, `DecryptFile` fails with `EmptyCiphertextError`, which is distinct from
`TruncatedFileError`; it does not report success, derives no key and writes nothing
(only the header is read). -/
theorem DecryptFile_header_only (lib : CryptoLib) (w : World)
    (inputFile outputFile password : String) (contents : List Byte)
    (hin : w.files inputFile = some contents) (hlen : contents.length = 48) :
    (DecryptFile lib inputFile outputFile password w).1 = .error .EmptyCiphertextError ∧
    (DecryptFile lib inputFile outputFile password w).1 ≠ .error .TruncatedFileError ∧
    (DecryptFile lib inputFile outputFile password w).1 ≠ .ok () ∧
    (DecryptFile lib inputFile outputFile password w).2.files = w.files ∧
    (DecryptFile lib inputFile outputFile password w).2.trace
      = w.trace ++ [.readHeader inputFile] := by
  have h1 : ¬ contents.length < sizeofFileHeader := by
    simp only [sizeofFileHeader, SALT_SIZE, IV_SIZE, BLOCK_SIZE]; omega
  have h2 : contents.length - sizeofFileHeader = 0 := by
    simp only [sizeofFileHeader, SALT_SIZE, IV_SIZE, BLOCK_SIZE]; omega
  simp [DecryptFile, hin, h1, h2, World.log]

/-- Witness for C5: a file of 48 zero bytes. -/
theorem DecryptFile_header_only_witness :
    (toyWorld (List.replicate 48 0) []).files "in.txt" = some (List.replicate 48 0) ∧
    (List.replicate 48 (0 : Byte)).length = 48 ∧
    (DecryptFile toyLib "in.txt" "out.bin" "pw123" (toyWorld (List.replicate 48 0) [])).1
      = .error .EmptyCiphertextError :=
  ⟨by decide, by decide,
    (DecryptFile_header_only toyLib (toyWorld (List.replicate 48 0) []) "in.txt" "out.bin"
      "pw123" (List.replicate 48 0) (by decide) (by decide)).1⟩

/-- C7: padding check on decrypt.  For every key, 32-byte IV and ciphertext whose length
is a positive multiple of 32, write the CBC-decrypted bytes as `body ++ fin` with `fin`
the final block and `p` its last byte.  Decryption fails with `PaddingError` if `p` is
not in 1..32 or the last `p` bytes of `fin` are not all equal to `p`; otherwise it
succeeds and returns the decrypted bytes with exactly those `p` trailing bytes removed. -/
theorem Decrypt_padding_check (lib : CryptoLib) (key iv ct : List Byte)
    (hiv : iv.length = IV_SIZE) (hpos : 0 < ct.length) (hmul : ct.length % BLOCK_SIZE = 0) :
    ∃ (body fin : List Byte) (p : Byte),
      cbcDecrypt lib key (ct.length / BLOCK_SIZE) iv ct = body ++ fin ∧
      fin.length = BLOCK_SIZE ∧ fin.getLast? = some p ∧
      ((p.val < 1 ∨ BLOCK_SIZE < p.val ∨ ∃ b ∈ fin.drop (BLOCK_SIZE - p.val), b ≠ p) →
        Decrypt lib key iv ct = .error .PaddingError) ∧
      (¬ (p.val < 1 ∨ BLOCK_SIZE < p.val ∨ ∃ b ∈ fin.drop (BLOCK_SIZE - p.val), b ≠ p) →
        ∃ rest, fin = rest ++ List.replicate p.val p ∧
          Decrypt lib key iv ct = .ok (body ++ rest)) := by
  simp only [BLOCK_SIZE, IV_SIZE] at hiv hmul ⊢
  have hM := cbcDecrypt_length lib key (ct.length / 32) iv ct hiv (by omega)
  have hsplit := split_final_block _ (ct.length / 32) (by omega) hM
  have hD := Decrypt_eq_of_aligned lib key iv ct hpos hmul
  simp only [] at hD
  generalize cbcDecrypt lib key (ct.length / 32) iv ct = M at hM hsplit hD
  obtain ⟨hMeq, hfin⟩ := hsplit
  have hM32 : 32 ≤ M.length := by omega
  have hcond : ∀ (fin : List Byte) (p : Byte),
      ((fin.drop (32 - p.val)).any (· != p) = true) ↔ ∃ b ∈ fin.drop (32 - p.val), b ≠ p := by
    intro fin p
    simp [List.any_eq_true]
  refine ⟨M.take (M.length - 32), M.drop (M.length - 32), (M.drop (M.length - 32)).getD 31 0,
    hMeq, hfin, getLast_of_length_32 _ hfin, ?_, ?_⟩
  · intro h
    rw [hD, if_pos]
    rcases h with h | h | h
    · exact Or.inl h
    · exact Or.inr (Or.inl h)
    · exact Or.inr (Or.inr ((hcond _ _).mpr h))
  · intro h
    have hp1 : 1 ≤ ((M.drop (M.length - 32)).getD 31 0).val := by
      by_contra hc; exact h (Or.inl (by omega))
    have hp2 : ((M.drop (M.length - 32)).getD 31 0).val ≤ 32 := by
      by_contra hc; exact h (Or.inr (Or.inl (by omega)))
    have hall : ∀ b ∈ (M.drop (M.length - 32)).drop (32 - ((M.drop (M.length - 32)).getD 31 0).val),
        b = (M.drop (M.length - 32)).getD 31 0 := by
      intro b hb
      by_contra hc
      exact h (Or.inr (Or.inr ⟨b, hb, hc⟩))
    have hnot : ¬ (((M.drop (M.length - 32)).getD 31 0).val < 1 ∨
        ((M.drop (M.length - 32)).getD 31 0).val > 32 ∨
        ((M.drop (M.length - 32)).drop (32 - ((M.drop (M.length - 32)).getD 31 0).val)).any
          (· != (M.drop (M.length - 32)).getD 31 0) = true) := by
      intro hc
      rcases hc with hc | hc | hc
      · omega
      · omega
      · exact h (Or.inr (Or.inr ((hcond _ _).mp hc)))
    generalize (M.drop (M.length - 32)).getD 31 0 = p at hp1 hp2 hall hnot hD ⊢
    have htail : (M.drop (M.length - 32)).drop (32 - p.val) = List.replicate p.val p := by
      rw [List.eq_replicate_iff]
      refine ⟨?_, hall⟩
      rw [List.length_drop, hfin]; omega
    refine ⟨(M.drop (M.length - 32)).take (32 - p.val), ?_, ?_⟩
    · rw [← htail, List.take_append_drop]
    · rw [hD, if_neg hnot, take_split_final M p.val hp2 hM32]

/-- Witness for C7: one block of zero bytes under the toy library. -/
theorem Decrypt_padding_check_witness :
    (List.replicate 32 (9 : Byte)).length = IV_SIZE ∧
    0 < (List.replicate 32 (0 : Byte)).length ∧
    (List.replicate 32 (0 : Byte)).length % BLOCK_SIZE = 0 ∧
    ∃ (body fin : List Byte) (p : Byte),
      cbcDecrypt toyLib (List.replicate 32 3)
        ((List.replicate 32 (0 : Byte)).length / BLOCK_SIZE) (List.replicate 32 9)
        (List.replicate 32 0) = body ++ fin ∧
      fin.length = BLOCK_SIZE ∧ fin.getLast? = some p ∧
      ((p.val < 1 ∨ BLOCK_SIZE < p.val ∨ ∃ b ∈ fin.drop (BLOCK_SIZE - p.val), b ≠ p) →
        Decrypt toyLib (List.replicate 32 3) (List.replicate 32 9) (List.replicate 32 0)
          = .error .PaddingError) ∧
      (¬ (p.val < 1 ∨ BLOCK_SIZE < p.val ∨ ∃ b ∈ fin.drop (BLOCK_SIZE - p.val), b ≠ p) →
        ∃ rest, fin = rest ++ List.replicate p.val p ∧
          Decrypt toyLib (List.replicate 32 3) (List.replicate 32 9) (List.replicate 32 0)
            = .ok (body ++ rest)) :=
  ⟨by decide, by decide, by decide,
    Decrypt_padding_check toyLib (List.replicate 32 3) (List.replicate 32 9)
      (List.replicate 32 0) (by decide) (by decide) (by decide)⟩

/-- C6: misaligned ciphertext.  For every input file of more than 48 bytes whose
ciphertext part (length minus 48) is not a multiple of 32, in particular every file of
49 to 79 bytes, and for every password, `DecryptFile` fails with `InputLengthError`;
it does not report success and writes nothing. -/
theorem DecryptFile_misaligned (lib : CryptoLib) (w : World)
    (inputFile outputFile password : String) (contents : List Byte)
    (hin : w.files inputFile = some contents)
    (hmis : (48 < contents.length ∧ (contents.length - 48) % 32 ≠ 0) ∨
      (49 ≤ contents.length ∧ contents.length ≤ 79)) :
    (DecryptFile lib inputFile outputFile password w).1 = .error .InputLengthError ∧
    (DecryptFile lib inputFile outputFile password w).1 ≠ .ok () ∧
    (DecryptFile lib inputFile outputFile password w).2.files = w.files := by
  have hlen : 48 < contents.length ∧ (contents.length - 48) % 32 ≠ 0 := by
    rcases hmis with h | h
    · exact h
    · omega
  have hsplit : contents = contents.take 16 ++ (contents.drop 16).take 32 ++ contents.drop 48 := by
    have h1 : (contents.drop 16).drop 32 = contents.drop 48 := by
      rw [List.drop_drop]
    rw [List.append_assoc, ← h1, List.take_append_drop, List.take_append_drop]
  have hc : (contents.drop 48).length = contents.length - 48 := List.length_drop _ _
  have hne : contents.drop 48 ≠ [] := by
    intro h; rw [h] at hc; simp at hc; omega
  rw [hsplit] at hin
  rw [DecryptFile_eq lib inputFile outputFile password w _ _ _ hin
    (by rw [List.length_take]; simp only [SALT_SIZE]; omega)
    (by rw [List.length_take, List.length_drop]; simp only [IV_SIZE, BLOCK_SIZE]; omega) hne]
  have hD : Decrypt lib (lib.pbkdf2 password (contents.take 16) ITERATIONS KEY_SIZE)
      ((contents.drop 16).take 32) (contents.drop 48) = .error .InputLengthError := by
    unfold Decrypt
    rw [if_pos]
    right
    rw [hc]
    exact hlen.2
  rw [hD]
  simp

/-- Witness for C6: a file of 49 bytes. -/
theorem DecryptFile_misaligned_witness :
    (toyWorld (List.replicate 49 0) []).files "in.txt" = some (List.replicate 49 0) ∧
    (49 ≤ (List.replicate 49 (0 : Byte)).length ∧ (List.replicate 49 (0 : Byte)).length ≤ 79) ∧
    (DecryptFile toyLib "in.txt" "out.bin" "pw123" (toyWorld (List.replicate 49 0) [])).1
      = .error .InputLengthError :=
  ⟨by decide, by decide,
    (DecryptFile_misaligned toyLib (toyWorld (List.replicate 49 0) []) "in.txt" "out.bin"
      "pw123" (List.replicate 49 0) (by decide) (Or.inr (by decide))).1⟩

/-- C8: empty source file.  For every password, `EncryptFile` on a zero-length input
file fails with `EmptyInputError` and leaves the world as it was: no salt or IV is
generated, no key is derived, nothing is encrypted and no output file is written. -/
theorem EncryptFile_empty_input (lib : CryptoLib) (w : World)
    (inputFile outputFile password : String) (hin : w.files inputFile = some []) :
    EncryptFile lib inputFile outputFile password w = (.error .EmptyInputError, w) := by
  simp only [EncryptFile, hin, List.length_nil, if_true]

/-- Witness for C8: the empty file `in.txt`. -/
theorem EncryptFile_empty_input_witness :
    (toyWorld [] []).files "in.txt" = some [] ∧
    EncryptFile toyLib "in.txt" "out.bin" "pw123" (toyWorld [] [])
      = (.error .EmptyInputError, toyWorld [] []) :=
  ⟨by decide, EncryptFile_empty_input toyLib (toyWorld [] []) "in.txt" "out.bin" "pw123"
    (by decide)⟩

/-- C9 (the code at the failing input): the batch command line
`shacal2_cbc encrypt in.txt out.bin ""` does not reject the empty password: `main`
exits with status 0 after deriving a key from the empty password, encrypting and
writing the output file. -/
theorem main_batch_accepts_empty_password :
    (main toyLib 0 ["shacal2_cbc", "encrypt", "in.txt", "out.bin", ""]
      (toyWorld [104, 101, 108, 108, 111] [])).1 = 0 ∧
    (main toyLib 0 ["shacal2_cbc", "encrypt", "in.txt", "out.bin", ""]
      (toyWorld [104, 101, 108, 108, 111] [])).2.trace
      = [.generateBlock 16, .generateBlock 32, .deriveKey "", .encrypt, .write "out.bin"] ∧
    ((main toyLib 0 ["shacal2_cbc", "encrypt", "in.txt", "out.bin", ""]
      (toyWorld [104, 101, 108, 108, 111] [])).2.files "out.bin").isSome = true := by
  decide

/-- C10: engine round trip.  For every key, every 32-byte IV and every plaintext `P` (of
any length, including empty and block-aligned lengths), given only that the inverse of
the block primitive undoes its forward permutation under the same key, CBC decryption
with padding removal of the CBC encryption with padding of `P` under the same key and
IV succeeds, with neither `PaddingError` nor `InputLengthError`, and returns exactly
`P`. -/
theorem engine_roundtrip (lib : CryptoLib) (key iv P : List Byte)
    (hiv : iv.length = IV_SIZE)
    (hinv : ∀ b, b.length = BLOCK_SIZE → lib.inverse key (lib.permute key b) = b) :
    Decrypt lib key iv (Encrypt lib key iv P) = .ok P ∧
    Decrypt lib key iv (Encrypt lib key iv P) ≠ .error .PaddingError ∧
    Decrypt lib key iv (Encrypt lib key iv P) ≠ .error .InputLengthError := by
  rw [Decrypt_Encrypt lib key iv P hiv hinv]
  simp

/-- Witness for C10: the empty plaintext under the toy library. -/
theorem engine_roundtrip_witness :
    (List.replicate 32 (9 : Byte)).length = IV_SIZE ∧
    (∀ b, b.length = BLOCK_SIZE →
      toyLib.inverse (List.replicate 32 3) (toyLib.permute (List.replicate 32 3) b) = b) ∧
    Decrypt toyLib (List.replicate 32 3) (List.replicate 32 9)
      (Encrypt toyLib (List.replicate 32 3) (List.replicate 32 9) []) = .ok [] :=
  ⟨by decide, fun b _ => toy_inverse _ b,
    (engine_roundtrip toyLib (List.replicate 32 3) (List.replicate 32 9) [] (by decide)
      (fun b _ => toy_inverse _ b)).1⟩

end Shacal2Cbc
